import Mathlib

/-!
Verification of the resource-resolution and context-matching engine of the
aptos-npm-mcp server (`src/server.ts`).

The TypeScript source is shallowly embedded: JS strings become Lean `String`
(a list of characters in this toolchain), `String.prototype.includes` becomes
an executable substring test, `Array.prototype.join` becomes `joinSep`, the
node `path.extname` / `path.basename` calls become `extname` / `basenameExt`,
and the filesystem is an explicit state (`FS`): the result of `readdirSync`
on the how_to directory (`none` models the thrown error that the source
catches) together with an oracle for the text returned by
`readMarkdownFromDirectory`.
-/

namespace AptosMcp

/-! ### String primitives -/

/-- Boolean prefix test on character lists. -/
def isPrefixList : List Char → List Char → Bool
  | [], _ => true
  | _ :: _, [] => false
  | a :: as, b :: bs => a == b && isPrefixList as bs

/-- Boolean substring test on character lists: does `hay` contain `pat`? -/
def listContains (hay pat : List Char) : Bool :=
  match hay with
  | [] => pat.isEmpty
  | c :: t => isPrefixList pat (c :: t) || listContains t pat

/-- JS `hay.includes(pat)`: substring containment. -/
def sContains (hay pat : String) : Bool := listContains hay.data pat.data

/-- JS `s.toLowerCase()`, modelled on the ASCII range (the only range the
matcher's keywords and the repository's identifiers use). -/
def toLowerJS (s : String) : String := String.mk (s.data.map Char.toLower)

/-- JS `arr.join(sep)`. -/
def joinSep (sep : String) : List String → String
  | [] => ""
  | [x] => x
  | x :: xs => x ++ sep ++ joinSep sep xs

/-- Truthiness of an optional JS string parameter: `undefined` and `""` are
falsy, every other string is truthy. -/
def jsTruthy : Option String → Bool
  | none => false
  | some s => !(s == "")

/-! ### Node path functions, for directory entries (no separators) -/

/-- Splits a character list at its last dot: `some (stem, tail)` with
`l = stem ++ '.' :: tail`, or `none` when `l` has no dot. -/
def splitExtAux : List Char → Option (List Char × List Char)
  | [] => none
  | c :: cs =>
    match splitExtAux cs with
    | some (st, ex) => some (c :: st, ex)
    | none => if c = '.' then some ([], cs) else none

/-- Node `path.extname` for a plain file name: the suffix from the last dot,
or `""` when there is no dot or the only dot starts the name. -/
def extname (s : String) : String :=
  match splitExtAux s.data with
  | some (st, ex) => if st.isEmpty then "" else String.mk ('.' :: ex)
  | none => ""

/-- Boolean suffix test on character lists. -/
def isSuffixL (p l : List Char) : Bool := isPrefixList p.reverse l.reverse

/-- Node `path.basename(file, ext)` for a plain file name: strips `ext` when
it is a proper suffix of the name. -/
def basenameExt (s ext : String) : String :=
  if ext != "" && isSuffixL ext.data s.data && s != ext then
    String.mk (s.data.take (s.data.length - ext.data.length))
  else s

/-! ### Filesystem state -/

/-- State of the how_to resource directory as the server observes it:
`howToDir` is the `readdirSync` listing (`none` models the call throwing,
e.g. a missing or unreadable directory), and `howToContent` is the text
`readMarkdownFromDirectory("how_to", name)` yields for a name. -/
structure FS where
  howToDir : Option (List String)
  howToContent : String → String

/-- The `readMarkdownFromDirectory("how_to", filename)` call of the source,
read from the filesystem state. -/
def readMarkdownHowTo (fs : FS) (filename : String) : String :=
  fs.howToContent filename

/-- `getAvailableHowToResources` (server.ts:276-287): list the directory,
keep entries whose lowercased extension is `.md`, strip the extension; on a
read error log and return the empty list. -/
def getAvailableHowToResources (fs : FS) : List String :=
  match fs.howToDir with
  | none => []
  | some files =>
    (files.filter fun file => toLowerJS (extname file) == ".md").map
      fun file => basenameExt file (extname file)

/-! ### The context matcher (server.ts:374-424) -/

/-- The filter body of `relevantResources` (server.ts:379-389): an ordered
keyword-group cascade over the lowercased context, falling back to a direct
substring test of the full context against the identifier. -/
def matchesContext (contextLower file : String) : Bool :=
  let fileLower := toLowerJS file
  if sContains contextLower "wallet" then sContains fileLower "wallet"
  else if sContains contextLower "gas" then sContains fileLower "gas"
  else if sContains contextLower "indexer" then sContains fileLower "indexer"
  else if sContains contextLower "api" || sContains contextLower "rate" then
    sContains fileLower "api" || sContains fileLower "rate"
  else if sContains contextLower "transaction" || sContains contextLower "sign" then
    sContains fileLower "transaction" || sContains fileLower "sign"
  else if sContains contextLower "fungible" || sContains contextLower "asset" then
    sContains fileLower "fungible" || sContains fileLower "asset"
  else sContains fileLower contextLower

/-- `relevantResources` (server.ts:379): the identifiers that pass the
selected filter, in discovery order. -/
def relevantResources (context : String) (availableFiles : List String) : List String :=
  availableFiles.filter fun file => matchesContext (toLowerJS context) file

/-! ### Fixed response texts of `get_aptos_resources` (server.ts:360-434) -/

/-- Reminder appended on the `specific_resource` branch (server.ts:366). -/
def specificResourceReminder : String :=
  "\n\n🔄 NEXT STEPS:\n- Implement following this Aptos-specific guidance\n- Use 'validate_current_implementation' after changes\n- If issues arise, use 'debug_aptos_issue' instead of guessing\n- Check related resources if needed"

/-- Guidance returned when no identifier matches (server.ts:392). -/
def noMatchGuidance (context : String) (availableFiles : List String) : String :=
  "No direct matches found for \"" ++ context ++ "\". Available resources:\n" ++
    joinSep "\n" availableFiles ++
    "\n\n🔄 NEXT STEPS:\n- Use 'get_specific_aptos_resource' with exact filename\n- Use 'debug_aptos_issue' with your specific problem\n- Refine your context and try again"

/-- Reminder appended when a single resource is auto-selected (server.ts:404). -/
def autoSelectedReminder (context : String) : String :=
  "\n\n🎯 This resource was auto-selected for context: \"" ++ context ++
    "\"\n\n🔄 IMPORTANT:\n- Follow this Aptos-specific guidance precisely\n- Use 'validate_current_implementation' after implementing\n- If you encounter issues, use 'debug_aptos_issue' with specifics\n- Don't mix with generic blockchain approaches"

/-- Response when several resources match (server.ts:413-418). -/
def multipleMatchesResponse (context : String) (relevant : List String) : String :=
  "📚 Multiple relevant resources found for \"" ++ context ++ "\":\n\n" ++
    joinSep "\n" (relevant.map fun r => "- " ++ r) ++
    "\n\n🔄 NEXT STEPS:\n" ++
    "- Use 'get_specific_aptos_resource' with the most relevant filename\n" ++
    "- Or use 'debug_aptos_issue' with your specific problem for targeted guidance\n" ++
    "- Remember: Always prefer Aptos-specific solutions from MCP over generic approaches"

/-- Overview returned when no context is provided (server.ts:428). -/
def overviewText (availableFiles : List String) : String :=
  "Available Aptos development resources:\n" ++ joinSep "\n" availableFiles ++
    "\n\n🔄 USAGE GUIDANCE:\n- Provide specific context for smart resource recommendations\n- Use exact filenames with 'get_specific_aptos_resource'\n- Use 'debug_aptos_issue' when stuck with specific problems\n- Regularly validate with 'validate_current_implementation'"

/-- `get_aptos_resources.execute` (server.ts:360-434): the `specific_resource`
branch loads directly; a truthy `context` runs the matcher and branches on the
number of matches; otherwise the overview is returned. -/
def getAptosResources (fs : FS) (specific_resource context : Option String) : String :=
  if jsTruthy specific_resource then
    readMarkdownHowTo fs (specific_resource.getD "") ++ specificResourceReminder
  else if jsTruthy context then
    let ctx := context.getD ""
    let availableFiles := getAvailableHowToResources fs
    let relevant := relevantResources ctx availableFiles
    if relevant.length = 0 then noMatchGuidance ctx availableFiles
    else if relevant.length = 1 then
      readMarkdownHowTo fs (relevant.headD "") ++ autoSelectedReminder ctx
    else multipleMatchesResponse ctx relevant
  else overviewText (getAvailableHowToResources fs)

/-! ### `get_specific_aptos_resource` (server.ts:308-339) -/

/-- Reminder appended to a successfully retrieved specific resource. -/
def followUpReminder : String :=
  "\n\n🔄 FOLLOW-UP ACTIONS:\n- If this doesn't fully solve your issue, use 'debug_aptos_issue' with specific details\n- After implementing, use 'validate_current_implementation' to verify correctness\n- For related integrations, check other relevant resources with 'get_aptos_resources'\n- Don't fall back to generic solutions - consult MCP first"

/-- `get_specific_aptos_resource.execute` (server.ts:319-338): an identifier
absent from the listing yields the not-found text with the alternatives;
otherwise the content is loaded and returned with the follow-up reminder. -/
def getSpecificAptosResource (fs : FS) (filename : String) : String :=
  let availableFiles := getAvailableHowToResources fs
  if availableFiles.contains filename then
    readMarkdownHowTo fs filename ++ followUpReminder
  else
    "Resource '" ++ filename ++ "' not found. Available resources:\n" ++
      joinSep "\n" availableFiles

/-! ### `build_smart_contract_on_aptos` (server.ts:36-54) -/

/-- A document store for the aggregation tools: each category directory maps
to its (identifier, content) pairs in discovery order. -/
structure DocTree where
  docs : String → List (String × String)

/-- Modelled from the spec: `readAllMarkdownFromDirectories` lives in
`src/utils`, which is not among the provided sources. Per §4.1 `aggregate`,
it loads every document of every listed category in order and concatenates
the texts, each under a visible delimiter naming its source; a category with
no documents contributes nothing, and when every category yields nothing the
result is the empty string (the caller in server.ts supplies the sentinel via
`content || ...`). -/
def readAllMarkdownFromDirectories (tree : DocTree) (dirs : List String) : String :=
  joinSep "\n\n"
    ((dirs.map fun dir =>
      (tree.docs dir).map fun doc => "## " ++ dir ++ "/" ++ doc.1 ++ "\n\n" ++ doc.2).flatten)

/-- Reminder appended by `build_smart_contract_on_aptos` (server.ts:47). -/
def buildSmartContractReminder : String :=
  "\n\n🔄 IMPORTANT REMINDERS:\n- If you get stuck implementing any part, use 'debug_aptos_issue' tool with your specific problem\n- Before proceeding to frontend, use 'validate_current_implementation' to ensure Move code follows best practices\n- For specific integrations (wallet, gas station, indexer), use 'get_aptos_resources' with relevant context\n- If errors occur, always consult MCP tools before trying generic solutions"

/-- `build_smart_contract_on_aptos.execute` (server.ts:41-53): aggregate the
management and move categories; `content || sentinel` substitutes the
sentinel exactly when the aggregate is the empty string. -/
def buildSmartContractOnAptos (tree : DocTree) : String :=
  let content := readAllMarkdownFromDirectories tree ["management", "move"]
  (if content == "" then "No content found in management and move directories."
   else content) ++ buildSmartContractReminder

/-! ### Fixtures for concrete evaluation -/

/-- The spec's fixture set of how-to documents (spec §8), as directory
entries. -/
def fixtureDir : List String :=
  ["how_to_add_wallet_connection.md",
   "how_to_sign_and_submit_transaction.md",
   "how_to_integrate_fungible_asset.md"]

/-- A concrete filesystem over the fixture directory whose content oracle
tags each document with its name. -/
def fixtureFS : FS :=
  ⟨some fixtureDir, fun name => "DOC " ++ name⟩

/-! ### Basic lemmas about the string primitives -/

theorem data_append (s t : String) : (s ++ t).data = s.data ++ t.data := by
  cases s; cases t; rfl

theorem isPrefixList_iff (p : List Char) :
    ∀ l : List Char, isPrefixList p l = true ↔ ∃ r, l = p ++ r := by
  induction p with
  | nil => intro l; simp [isPrefixList]
  | cons a as ih =>
    intro l
    cases l with
    | nil => simp [isPrefixList]
    | cons b bs =>
      simp only [isPrefixList, Bool.and_eq_true, beq_iff_eq, ih bs]
      constructor
      · rintro ⟨hab, r, hr⟩
        exact ⟨r, by simp [hab, hr]⟩
      · rintro ⟨r, hr⟩
        rw [List.cons_append] at hr
        injection hr with h1 h2
        exact ⟨h1.symm, r, h2⟩

theorem listContains_iff (l p : List Char) :
    listContains l p = true ↔ ∃ s t, l = s ++ p ++ t := by
  induction l with
  | nil =>
    simp only [listContains, List.isEmpty_iff]
    constructor
    · rintro rfl
      exact ⟨[], [], rfl⟩
    · rintro ⟨s, t, h⟩
      rcases List.append_eq_nil.1 h.symm with ⟨h1, -⟩
      exact (List.append_eq_nil.1 h1).2
  | cons c cs ih =>
    simp only [listContains, Bool.or_eq_true, ih, isPrefixList_iff]
    constructor
    · rintro (⟨r, hr⟩ | ⟨s, t, h⟩)
      · exact ⟨[], r, by simpa using hr⟩
      · exact ⟨c :: s, t, by simp [h]⟩
    · rintro ⟨s, t, h⟩
      cases s with
      | nil => exact Or.inl ⟨t, by simpa using h⟩
      | cons c' s' =>
        simp only [List.cons_append] at h
        injection h with h1 h2
        exact Or.inr ⟨s', t, h2⟩

theorem sContains_iff (hay pat : String) :
    sContains hay pat = true ↔ ∃ s t, hay.data = s ++ pat.data ++ t :=
  listContains_iff _ _

theorem sContains_self (p : String) : sContains p p = true :=
  (sContains_iff p p).2 ⟨[], [], by simp⟩

theorem sContains_appendL {a p : String} (h : sContains a p = true) (b : String) :
    sContains (a ++ b) p = true := by
  rcases (sContains_iff a p).1 h with ⟨s, t, hst⟩
  exact (sContains_iff _ _).2 ⟨s, t ++ b.data, by simp [data_append, hst]⟩

theorem sContains_appendR {b p : String} (h : sContains b p = true) (a : String) :
    sContains (a ++ b) p = true := by
  rcases (sContains_iff b p).1 h with ⟨s, t, hst⟩
  exact (sContains_iff _ _).2 ⟨a.data ++ s, t, by simp [data_append, hst]⟩

theorem sContains_trans {a b c : String} (h1 : sContains a b = true)
    (h2 : sContains b c = true) : sContains a c = true := by
  rcases (sContains_iff a b).1 h1 with ⟨s, t, hst⟩
  rcases (sContains_iff b c).1 h2 with ⟨u, v, huv⟩
  exact (sContains_iff _ _).2 ⟨s ++ u, v ++ t, by simp [hst, huv]⟩

theorem sContains_nil_pat (s : String) : sContains s "" = true := by
  cases s with
  | mk l => cases l <;> simp [sContains, listContains, isPrefixList]

theorem sContains_joinSep {a sep : String} {L : List String} (h : a ∈ L) :
    sContains (joinSep sep L) a = true := by
  induction L with
  | nil => cases h
  | cons x xs ih =>
    cases xs with
    | nil =>
      have hx : a = x := List.mem_singleton.1 h
      subst hx
      exact sContains_self a
    | cons y ys =>
      rcases List.mem_cons.1 h with hx | hm
      · subst hx
        exact sContains_appendL (sContains_appendL (sContains_self a) sep) (joinSep sep (y :: ys))
      · exact sContains_appendR (ih hm) (x ++ sep)

/-! ### Lemmas about `extname` and `basenameExt` -/

theorem splitExtAux_eq :
    ∀ {l st ex : List Char}, splitExtAux l = some (st, ex) → l = st ++ '.' :: ex := by
  intro l
  induction l with
  | nil => intro st ex h; simp [splitExtAux] at h
  | cons c cs ih =>
    intro st ex h
    simp only [splitExtAux] at h
    cases hcs : splitExtAux cs with
    | some p =>
      obtain ⟨st', ex'⟩ := p
      rw [hcs] at h
      simp only [Option.some.injEq, Prod.mk.injEq] at h
      obtain ⟨h1, h2⟩ := h
      subst h1; subst h2
      simpa using congrArg (c :: ·) (ih hcs)
    | none =>
      rw [hcs] at h
      by_cases hc : c = '.'
      · simp only [hc, if_true, Option.some.injEq, Prod.mk.injEq] at h
        obtain ⟨h1, h2⟩ := h
        subst h1; subst h2
        simp [hc]
      · simp [hc] at h

theorem extname_cases {f : String} (h : toLowerJS (extname f) = ".md") :
    ∃ st ex, splitExtAux f.data = some (st, ex) ∧ st ≠ [] ∧
      extname f = String.mk ('.' :: ex) ∧ f.data = st ++ '.' :: ex := by
  cases hsp : splitExtAux f.data with
  | none =>
    rw [extname, hsp] at h
    simp [toLowerJS] at h
  | some p =>
    obtain ⟨st, ex⟩ := p
    by_cases hst : st.isEmpty
    · rw [extname, hsp] at h
      simp only [hst, if_true] at h
      simp [toLowerJS] at h
    · refine ⟨st, ex, rfl, ?_, ?_, splitExtAux_eq hsp⟩
      · intro hnil
        rw [hnil] at hst
        exact hst rfl
      · rw [extname, hsp]
        simp [hst]

theorem basenameExt_extname {f : String} {st ex : List Char} (hst : st ≠ [])
    (hdata : f.data = st ++ '.' :: ex) (hex : extname f = String.mk ('.' :: ex)) :
    basenameExt f (extname f) = String.mk st := by
  rw [hex]
  have c1 : (String.mk ('.' :: ex) != "") = true := by
    rw [bne_iff_ne]
    intro hcon
    exact absurd (congrArg String.data hcon) (by simp)
  have c2 : isSuffixL (String.mk ('.' :: ex)).data f.data = true := by
    rw [hdata]
    unfold isSuffixL
    exact (isPrefixList_iff _ _).2 ⟨st.reverse, by rw [List.reverse_append]⟩
  have c3 : (f != String.mk ('.' :: ex)) = true := by
    rw [bne_iff_ne]
    intro hcon
    have hd := congrArg String.data hcon
    rw [hdata] at hd
    have hlen := congrArg List.length hd
    simp [List.length_append] at hlen
    exact hst hlen
  rw [basenameExt, if_pos (by rw [c1, c2, c3]; rfl)]
  have hlen : f.data.length - (String.mk ('.' :: ex)).data.length = st.length := by
    rw [hdata]
    simp [List.length_append]
  rw [hlen, hdata]
  exact congrArg String.mk (List.take_left st ('.' :: ex))

/-! ### The claims -/

/-- C1: the keyword groups are evaluated in the fixed priority order with the
wallet group first, so for every context query whose lowercased form contains
both "wallet" and "gas", the wallet group determines the filter and the match
result is exactly the identifiers whose lowercased form contains "wallet". -/
theorem c1_wallet_beats_gas (context : String) (availableFiles : List String)
    (hw : sContains (toLowerJS context) "wallet" = true)
    (_hg : sContains (toLowerJS context) "gas" = true) :
    relevantResources context availableFiles =
      availableFiles.filter fun file => sContains (toLowerJS file) "wallet" := by
  unfold relevantResources
  exact List.filter_congr fun f _ => by simp [matchesContext, hw]

/-- Witness for C1 at the query "Wallet Gas fee" over the fixture listing. -/
theorem c1_wallet_beats_gas_witness :
    sContains (toLowerJS "Wallet Gas fee") "wallet" = true ∧
    sContains (toLowerJS "Wallet Gas fee") "gas" = true ∧
    relevantResources "Wallet Gas fee" (getAvailableHowToResources fixtureFS) =
      (getAvailableHowToResources fixtureFS).filter fun file =>
        sContains (toLowerJS file) "wallet" :=
  ⟨by decide, by decide, c1_wallet_beats_gas _ _ (by decide) (by decide)⟩

/-- C7: when no keyword group's trigger substring occurs in the lowercased
query, the filter degenerates to the substring fallback: an identifier is kept
exactly when its lowercased form contains the full lowercased query. -/
theorem c7_fallback_substring (context : String) (availableFiles : List String)
    (h1 : sContains (toLowerJS context) "wallet" = false)
    (h2 : sContains (toLowerJS context) "gas" = false)
    (h3 : sContains (toLowerJS context) "indexer" = false)
    (h4 : sContains (toLowerJS context) "api" = false)
    (h5 : sContains (toLowerJS context) "rate" = false)
    (h6 : sContains (toLowerJS context) "transaction" = false)
    (h7 : sContains (toLowerJS context) "sign" = false)
    (h8 : sContains (toLowerJS context) "fungible" = false)
    (h9 : sContains (toLowerJS context) "asset" = false) :
    relevantResources context availableFiles =
      availableFiles.filter fun file =>
        sContains (toLowerJS file) (toLowerJS context) := by
  unfold relevantResources
  exact List.filter_congr fun f _ => by
    simp [matchesContext, h1, h2, h3, h4, h5, h6, h7, h8, h9]

/-- Witness for C7 at the trigger-free query "full node" over the fixture
listing. -/
theorem c7_fallback_substring_witness :
    sContains (toLowerJS "full node") "wallet" = false ∧
    sContains (toLowerJS "full node") "sign" = false ∧
    relevantResources "full node" (getAvailableHowToResources fixtureFS) =
      (getAvailableHowToResources fixtureFS).filter fun file =>
        sContains (toLowerJS file) (toLowerJS "full node") :=
  ⟨by decide, by decide,
    c7_fallback_substring _ _ (by decide) (by decide) (by decide) (by decide)
      (by decide) (by decide) (by decide) (by decide) (by decide)⟩

/-- C3: the empty query triggers no keyword group and falls through to the
substring fallback, which every identifier passes (every string contains the
empty string), so the filter keeps everything; and since the empty string is
a falsy JS parameter, the executed operation returns the very overview of all
available identifiers that the no-context call returns. -/
theorem c3_empty_query_degenerates :
    (∀ availableFiles : List String,
        relevantResources "" availableFiles = availableFiles) ∧
    (∀ fs : FS, getAptosResources fs none (some "") = getAptosResources fs none none) ∧
    (∀ fs : FS,
        getAptosResources fs none (some "") =
          overviewText (getAvailableHowToResources fs)) := by
  have hall : ∀ f : String, matchesContext (toLowerJS "") f = true := by
    intro f
    have h1 : sContains (toLowerJS "") "wallet" = false := by decide
    have h2 : sContains (toLowerJS "") "gas" = false := by decide
    have h3 : sContains (toLowerJS "") "indexer" = false := by decide
    have h4 : sContains (toLowerJS "") "api" = false := by decide
    have h5 : sContains (toLowerJS "") "rate" = false := by decide
    have h6 : sContains (toLowerJS "") "transaction" = false := by decide
    have h7 : sContains (toLowerJS "") "sign" = false := by decide
    have h8 : sContains (toLowerJS "") "fungible" = false := by decide
    have h9 : sContains (toLowerJS "") "asset" = false := by decide
    have hfall : sContains (toLowerJS f) (toLowerJS "") = true := sContains_nil_pat _
    simp [matchesContext, h1, h2, h3, h4, h5, h6, h7, h8, h9, hfall]
  refine ⟨?_, ?_, ?_⟩
  · intro files
    unfold relevantResources
    calc files.filter (fun file => matchesContext (toLowerJS "") file)
        = files.filter (fun _ => true) := List.filter_congr fun f _ => hall f
      _ = files := List.filter_true files
  · intro fs
    simp [getAptosResources, jsTruthy]
  · intro fs
    simp [getAptosResources, jsTruthy]

/-- C5: when the how_to directory is missing or unreadable (the directory
read throws), the discovery helper returns the empty listing instead of
propagating the failure, whatever the content oracle holds. -/
theorem c5_unreadable_dir_empty (g : String → String) :
    getAvailableHowToResources ⟨none, g⟩ = [] := rfl

/-! ### Branch reduction and containment lemmas for `get_aptos_resources` -/

theorem getAptosResources_context (fs : FS) (ctx : String) (h : ctx ≠ "") :
    getAptosResources fs none (some ctx) =
      (if (relevantResources ctx (getAvailableHowToResources fs)).length = 0 then
        noMatchGuidance ctx (getAvailableHowToResources fs)
      else if (relevantResources ctx (getAvailableHowToResources fs)).length = 1 then
        readMarkdownHowTo fs
            ((relevantResources ctx (getAvailableHowToResources fs)).headD "") ++
          autoSelectedReminder ctx
      else
        multipleMatchesResponse ctx
          (relevantResources ctx (getAvailableHowToResources fs))) := by
  simp [getAptosResources, jsTruthy, h]

theorem sContains_multipleMatches {m ctx : String} {L : List String} (hm : m ∈ L) :
    sContains (multipleMatchesResponse ctx L) m = true := by
  unfold multipleMatchesResponse
  have h1 : sContains (joinSep "\n" (L.map fun r => "- " ++ r)) m = true :=
    sContains_trans (sContains_joinSep (List.mem_map_of_mem _ hm))
      (sContains_appendR (sContains_self m) "- ")
  exact sContains_appendL (sContains_appendL (sContains_appendL (sContains_appendL
    (sContains_appendR h1 _) _) _) _) _

theorem sContains_noMatch_id {a ctx : String} {L : List String} (ha : a ∈ L) :
    sContains (noMatchGuidance ctx L) a = true := by
  unfold noMatchGuidance
  exact sContains_appendL (sContains_appendR (sContains_joinSep ha) _) _

theorem sContains_noMatch_tail (ctx : String) (L : List String) {p : String}
    (hp : sContains "\n\n🔄 NEXT STEPS:\n- Use 'get_specific_aptos_resource' with exact filename\n- Use 'debug_aptos_issue' with your specific problem\n- Refine your context and try again" p = true) :
    sContains (noMatchGuidance ctx L) p = true := by
  unfold noMatchGuidance
  exact sContains_appendR hp _

/-- C2: for every truthy context query, the operation follows the match
cardinality policy: a unique match is answered with that resource's full
content (plus reminder); several matches are answered with a response that is
independent of every document's content and lists each matching identifier;
no match is answered with a text that lists every available identifier and
invites a retry with a different phrase or an exact identifier. -/
theorem c2_match_cardinality_policy (fs : FS) (ctx : String) (h : ctx ≠ "") :
    (∀ r : String,
        relevantResources ctx (getAvailableHowToResources fs) = [r] →
        getAptosResources fs none (some ctx) =
          readMarkdownHowTo fs r ++ autoSelectedReminder ctx) ∧
    (1 < (relevantResources ctx (getAvailableHowToResources fs)).length →
        (∀ g : String → String,
            getAptosResources ⟨fs.howToDir, g⟩ none (some ctx) =
              multipleMatchesResponse ctx
                (relevantResources ctx (getAvailableHowToResources fs))) ∧
        (∀ m ∈ relevantResources ctx (getAvailableHowToResources fs),
            sContains (getAptosResources fs none (some ctx)) m = true)) ∧
    (relevantResources ctx (getAvailableHowToResources fs) = [] →
        (∀ a ∈ getAvailableHowToResources fs,
            sContains (getAptosResources fs none (some ctx)) a = true) ∧
        sContains (getAptosResources fs none (some ctx))
            "Refine your context and try again" = true ∧
        sContains (getAptosResources fs none (some ctx)) "exact filename" = true) := by
  refine ⟨?_, ?_, ?_⟩
  · intro r hr
    rw [getAptosResources_context fs ctx h, hr]
    simp
  · intro hlen
    have h0 : ¬(relevantResources ctx (getAvailableHowToResources fs)).length = 0 := by omega
    have h1 : ¬(relevantResources ctx (getAvailableHowToResources fs)).length = 1 := by omega
    constructor
    · intro g
      have hsame : getAvailableHowToResources ⟨fs.howToDir, g⟩ =
          getAvailableHowToResources fs := rfl
      rw [getAptosResources_context ⟨fs.howToDir, g⟩ ctx h, hsame, if_neg h0, if_neg h1]
    · intro m hm
      rw [getAptosResources_context fs ctx h, if_neg h0, if_neg h1]
      exact sContains_multipleMatches hm
  · intro hempty
    have h0 : (relevantResources ctx (getAvailableHowToResources fs)).length = 0 := by
      rw [hempty]; rfl
    rw [getAptosResources_context fs ctx h, if_pos h0]
    exact ⟨fun a ha => sContains_noMatch_id ha,
      sContains_noMatch_tail ctx _ (by decide),
      sContains_noMatch_tail ctx _ (by decide)⟩

/-- Witness for C2: at the fixture, the query "wallet" has the unique match
`how_to_add_wallet_connection` and the operation returns its content plus the
auto-selection reminder. -/
theorem c2_match_cardinality_policy_witness :
    getAptosResources fixtureFS none (some "wallet") =
      readMarkdownHowTo fixtureFS "how_to_add_wallet_connection" ++
        autoSelectedReminder "wallet" :=
  (c2_match_cardinality_policy fixtureFS "wallet" (by decide)).1
    "how_to_add_wallet_connection" (by decide)

/-- C8: with several matches, the returned identifiers are the filter-passing
subsequence of the discovery listing, in discovery order: the match result is
a sublist of `getAvailableHowToResources`, and the operation's answer is the
multiple-matches response built from exactly that list (the operation is a
pure function of the directory listing, so the answer is deterministic for a
fixed listing). -/
theorem c8_discovery_order (fs : FS) (ctx : String) (h : ctx ≠ "")
    (hlen : 1 < (relevantResources ctx (getAvailableHowToResources fs)).length) :
    List.Sublist (relevantResources ctx (getAvailableHowToResources fs))
        (getAvailableHowToResources fs) ∧
    getAptosResources fs none (some ctx) =
      multipleMatchesResponse ctx
        (relevantResources ctx (getAvailableHowToResources fs)) := by
  constructor
  · exact List.filter_sublist _
  · have h0 : ¬(relevantResources ctx (getAvailableHowToResources fs)).length = 0 := by omega
    have h1 : ¬(relevantResources ctx (getAvailableHowToResources fs)).length = 1 := by omega
    rw [getAptosResources_context fs ctx h, if_neg h0, if_neg h1]

/-- Witness for C8 at the fixture with the query "how_to", which matches all
three identifiers through the substring fallback. -/
theorem c8_discovery_order_witness :
    List.Sublist (relevantResources "how_to" (getAvailableHowToResources fixtureFS))
        (getAvailableHowToResources fixtureFS) ∧
    getAptosResources fixtureFS none (some "how_to") =
      multipleMatchesResponse "how_to"
        (relevantResources "how_to" (getAvailableHowToResources fixtureFS)) :=
  c8_discovery_order fixtureFS "how_to" (by decide) (by decide)

/-- C4: an identifier absent from the how-to listing makes
`get_specific_aptos_resource` answer with the not-found text: the answer
never reads any document content (it is the same under every content
oracle), says "not found", and lists every — in particular at least one —
valid identifier of the listing. -/
theorem c4_not_found_alternatives (fs : FS) (filename : String)
    (hne : filename ∉ getAvailableHowToResources fs)
    (hsome : getAvailableHowToResources fs ≠ []) :
    (∀ g : String → String,
        getSpecificAptosResource ⟨fs.howToDir, g⟩ filename =
          getSpecificAptosResource fs filename) ∧
    sContains (getSpecificAptosResource fs filename) "not found" = true ∧
    (∀ a ∈ getAvailableHowToResources fs,
        sContains (getSpecificAptosResource fs filename) a = true) ∧
    (∃ a ∈ getAvailableHowToResources fs,
        sContains (getSpecificAptosResource fs filename) a = true) := by
  have hb : getSpecificAptosResource fs filename =
      "Resource '" ++ filename ++ "' not found. Available resources:\n" ++
        joinSep "\n" (getAvailableHowToResources fs) := by
    unfold getSpecificAptosResource
    simp [hne]
  refine ⟨?_, ?_, ?_, ?_⟩
  · intro g
    have hsame : getAvailableHowToResources ⟨fs.howToDir, g⟩ =
        getAvailableHowToResources fs := rfl
    unfold getSpecificAptosResource
    simp [hsame, hne]
  · rw [hb]
    exact sContains_appendL (sContains_appendR
      (by decide : sContains "' not found. Available resources:\n" "not found" = true) _) _
  · intro a ha
    rw [hb]
    exact sContains_appendR (sContains_joinSep ha) _
  · obtain ⟨a, ha⟩ := List.exists_mem_of_ne_nil _ hsome
    refine ⟨a, ha, ?_⟩
    rw [hb]
    exact sContains_appendR (sContains_joinSep ha) _

/-- Witness for C4 at the fixture and the absent identifier "missing_id". -/
theorem c4_not_found_alternatives_witness :
    sContains (getSpecificAptosResource fixtureFS "missing_id") "not found" = true ∧
    sContains (getSpecificAptosResource fixtureFS "missing_id")
      "how_to_add_wallet_connection" = true :=
  ⟨(c4_not_found_alternatives fixtureFS "missing_id" (by decide) (by decide)).2.1,
   (c4_not_found_alternatives fixtureFS "missing_id" (by decide) (by decide)).2.2.1
     "how_to_add_wallet_connection" (by decide)⟩

/-- C6: when every input category of the smart-contract aggregation yields no
documents, the operation answers with the "no content found" sentinel (plus
the reminder block), and that answer is distinct from the empty string. -/
theorem c6_no_content_sentinel (tree : DocTree)
    (hm : tree.docs "management" = []) (hv : tree.docs "move" = []) :
    buildSmartContractOnAptos tree =
      "No content found in management and move directories." ++
        buildSmartContractReminder ∧
    buildSmartContractOnAptos tree ≠ "" := by
  have hagg : readAllMarkdownFromDirectories tree ["management", "move"] = "" := by
    simp [readAllMarkdownFromDirectories, hm, hv, joinSep]
  constructor
  · unfold buildSmartContractOnAptos
    rw [hagg]
    rfl
  · unfold buildSmartContractOnAptos
    rw [hagg]
    decide

/-- Witness for C6 at the document store holding no documents at all. -/
theorem c6_no_content_sentinel_witness :
    buildSmartContractOnAptos ⟨fun _ => []⟩ =
      "No content found in management and move directories." ++
        buildSmartContractReminder ∧
    buildSmartContractOnAptos ⟨fun _ => []⟩ ≠ "" :=
  c6_no_content_sentinel ⟨fun _ => []⟩ rfl rfl

/-- C9 fails as stated: two distinct directory entries that differ only in
the case of their extension both survive the `.md` filter and collapse to the
same extension-stripped identifier, so the listing holds duplicates. -/
theorem c9_counterexample :
    getAvailableHowToResources ⟨some ["foo.md", "foo.MD"], fun _ => ""⟩ = ["foo", "foo"] ∧
    ¬ (getAvailableHowToResources ⟨some ["foo.md", "foo.MD"], fun _ => ""⟩).Nodup :=
  ⟨by decide, by decide⟩

/-- C9 as amended: over a duplicate-free directory listing whose surviving
entries all carry the literal extension ".md" (no case variation), the
extension-stripped identifiers are pairwise distinct, so the listing of
identifiers holds no duplicates. -/
theorem c9_nodup_for_uniform_extensions (files : List String) (g : String → String)
    (hnd : files.Nodup)
    (hcase : ∀ f ∈ files, toLowerJS (extname f) = ".md" → extname f = ".md") :
    (getAvailableHowToResources ⟨some files, g⟩).Nodup := by
  unfold getAvailableHowToResources
  refine List.Nodup.map_on ?_ (hnd.filter _)
  intro f1 hf1 f2 hf2 hid
  rw [List.mem_filter] at hf1 hf2
  have h1 : toLowerJS (extname f1) = ".md" := beq_iff_eq.1 hf1.2
  have h2 : toLowerJS (extname f2) = ".md" := beq_iff_eq.1 hf2.2
  have hext : extname f1 = extname f2 := by
    rw [hcase f1 hf1.1 h1, hcase f2 hf2.1 h2]
  obtain ⟨st1, ex1, _, hst1, hex1, hdata1⟩ := extname_cases h1
  obtain ⟨st2, ex2, _, hst2, hex2, hdata2⟩ := extname_cases h2
  rw [basenameExt_extname hst1 hdata1 hex1, basenameExt_extname hst2 hdata2 hex2] at hid
  have hexx : ex1 = ex2 := by
    rw [hex1, hex2] at hext
    have hd := congrArg String.data hext
    simp only at hd
    injection hd
  have hstx : st1 = st2 := congrArg String.data hid
  apply String.ext
  rw [hdata1, hdata2, hexx, hstx]

/-- Witness for C9's amended statement at the fixture listing, whose entries
all carry the lowercase extension ".md". -/
theorem c9_nodup_for_uniform_extensions_witness :
    fixtureDir.Nodup ∧
    (getAvailableHowToResources ⟨some fixtureDir, fun _ => ""⟩).Nodup :=
  ⟨by decide,
   c9_nodup_for_uniform_extensions fixtureDir (fun _ => "") (by decide)
     (by decide)⟩

/-- C10 fails as stated: the branch guard is JS truthiness, not presence, so
a call that supplies the empty string as `specific_resource` together with a
context falls through to the context matcher instead of loading the empty
identifier. -/
theorem c10_counterexample :
    getAptosResources fixtureFS (some "") (some "wallet") ≠
      readMarkdownHowTo fixtureFS "" ++ specificResourceReminder := by
  decide

/-- C10 as amended: for every call supplying a non-empty `specific_resource`,
the operation loads and returns that resource's content directly — whatever
context is also supplied and whatever the directory listing holds, so no
membership check and no not-found policy applies on this path. -/
theorem c10_specific_resource_bypass (fs : FS) (s : String) (hs : s ≠ "")
    (context : Option String) :
    getAptosResources fs (some s) context =
      readMarkdownHowTo fs s ++ specificResourceReminder := by
  simp [getAptosResources, jsTruthy, hs]

/-- Witness for C10's amended statement: an identifier absent from the
fixture listing is loaded directly, with a context supplied alongside. -/
theorem c10_specific_resource_bypass_witness :
    getAptosResources fixtureFS (some "totally_bogus") (some "wallet") =
      readMarkdownHowTo fixtureFS "totally_bogus" ++ specificResourceReminder :=
  c10_specific_resource_bypass fixtureFS "totally_bogus" (by decide) (some "wallet")

end AptosMcp
